import Mathlib

/-!
Verification of the Sapi-AI grade-management application.

This file shallowly embeds the functions of `grade_prediction.py`,
`ml_grade_prediction.py` and `data.py` that the verified properties
concern, and proves those properties.  Python floats are idealised as
exact rationals (`ℚ`), Python ints as `ℤ`/`ℕ`, fallible code returns a
`PyResult` distinguishing a normal return from a raised exception.
-/

namespace SapiAI

/-- Result of running a Python call: either a returned value or a raised
exception, identified by the exception's name/message. -/
inductive PyResult (α : Type) where
  | ok (val : α)
  | exn (e : String)
deriving DecidableEq, Repr

namespace GradePrediction

/-- A grade record as stored in `st.session_state.grades[subject]`: a dict
with keys `grade` and (optionally) `weight`; a missing weight defaults
to 1 via `g.get('weight', 1)`.  Fields not consulted by the functions
modelled here (date, type, comment) are omitted. -/
structure GradeRec where
  grade : ℚ
  weight : Option ℚ
deriving DecidableEq, Repr

/-- The weight `g.get('weight', 1)` of a record. -/
def weightOf (g : GradeRec) : ℚ := g.weight.getD 1

/-- Python `sum(g['grade'] * g.get('weight', 1) for g in grades_list)`. -/
def totalWeightedSum (gs : List GradeRec) : ℚ :=
  (gs.map (fun g => g.grade * weightOf g)).sum

/-- Python `sum(g.get('weight', 1) for g in grades_list)`. -/
def totalWeight (gs : List GradeRec) : ℚ :=
  (gs.map weightOf).sum

/-- Embedding of `calculate_weighted_average` (grade_prediction.py):
returns 0.0 on an empty list, otherwise the weighted sum over the weight
sum when the latter is positive, else 0.0. -/
def calculate_weighted_average (gs : List GradeRec) : ℚ :=
  if gs = [] then 0
  else if 0 < totalWeight gs then totalWeightedSum gs / totalWeight gs else 0

/-- Embedding of `calculate_required_score` (grade_prediction.py).
Returns `ok none` when `remaining_tests <= 0`; when the future total
weight `remaining_tests * test_weight` is zero the Python division
raises `ZeroDivisionError`, modelled as `exn`; otherwise the required
score is returned. -/
def calculate_required_score (gs : List GradeRec) (target : ℚ)
    (remaining : ℤ) (w : ℚ) : PyResult (Option ℚ) :=
  if remaining ≤ 0 then .ok none
  else
    let currentWeightedSum := totalWeightedSum gs
    let currentTotalWeight := totalWeight gs
    let futureTotalWeight : ℚ := (remaining : ℚ) * w
    if futureTotalWeight = 0 then .exn "ZeroDivisionError"
    else
      let allWeight := currentTotalWeight + futureTotalWeight
      let targetWeightedSum := target * allWeight
      .ok (some ((targetWeightedSum - currentWeightedSum) / futureTotalWeight))

/-- The message classes that `display_goal_simulation` can show for a
computed required score: the impossible error, the already-achieved
success, or a difficulty rating of 1-5 stars. -/
inductive SimOutcome where
  | impossible
  | achieved
  | difficulty (stars : ℕ)
deriving DecidableEq, Repr

/-- The star rating assigned by the difficulty ladder of
`display_goal_simulation` (95/85/75/60 thresholds). -/
def difficultyStars (x : ℚ) : ℕ :=
  if 95 ≤ x then 5
  else if 85 ≤ x then 4
  else if 75 ≤ x then 3
  else if 60 ≤ x then 2
  else 1

/-- The branch of `display_goal_simulation` taken once
`calculate_required_score` has returned a value `x`: impossible when
`x > 100`, already achieved when `x < 0`, otherwise a difficulty
rating. -/
def goalSimMessage (x : ℚ) : SimOutcome :=
  if 100 < x then .impossible
  else if x < 0 then .achieved
  else .difficulty (difficultyStars x)

/-- The `min_value` of the テストの重み (test weight) number input of the
goal-simulation UI: 0.0, so a zero weight is accepted by the form. -/
def simulationWeightMin : ℚ := 0

/-- The two-record grades list with scores 80 (weight 1) and 90
(weight 2) used as the spec's worked example: S = 260, W = 3. -/
def sampleGrades : List GradeRec := [⟨80, some 1⟩, ⟨90, some 2⟩]

end GradePrediction

namespace MLPrediction

/-- A grade record as consumed by GradePredictionML
(ml_grade_prediction.py): a dict with keys date, type, grade, weight.
Dates are modelled as day numbers (the code converts datetime
differences to whole-day floats). -/
structure MLRec where
  date : ℕ
  type : String
  grade : ℚ
  weight : ℚ
deriving DecidableEq, Repr

/-- Arithmetic mean of a list (pandas Series.mean on nonempty data). -/
def meanQ (l : List ℚ) : ℚ := l.sum / (l.length : ℚ)

/-- Minimum of a nonempty list (pandas Series.min). -/
def listMinQ : List ℚ → ℚ
  | [] => 0
  | x :: xs => xs.foldl min x

/-- Maximum of a nonempty list (pandas Series.max). -/
def listMaxQ : List ℚ → ℚ
  | [] => 0
  | x :: xs => xs.foldl max x

/-- Minimum of a nonempty list of dates (pandas Series.min on dates). -/
def listMinNat : List ℕ → ℕ
  | [] => 0
  | x :: xs => xs.foldl min x

/-- Maximum of a nonempty list of dates (pandas Series.max on dates). -/
def listMaxNat : List ℕ → ℕ
  | [] => 0
  | x :: xs => xs.foldl max x

/-- Ordered insertion used by the sorting model. -/
def insertQ (x : ℚ) : List ℚ → List ℚ
  | [] => [x]
  | y :: ys => if x ≤ y then x :: y :: ys else y :: insertQ x ys

/-- Ascending sort of rationals (for the median). -/
def sortQ (l : List ℚ) : List ℚ := l.foldr insertQ []

/-- Median of a list (pandas Series.median): middle element for odd
length, mean of the two middle elements for even length. -/
def medianQ (l : List ℚ) : ℚ :=
  let s := sortQ l
  let n := s.length
  if n = 0 then 0
  else if n % 2 = 1 then s.getD (n / 2) 0
  else (s.getD (n / 2 - 1) 0 + s.getD (n / 2) 0) / 2

/-- The last k elements of a list (pandas Series.tail(k)). -/
def lastN (k : ℕ) (l : List ℚ) : List ℚ := l.drop (l.length - k)

/-- Stable insertion by date, used to model df.sort_values('date'). -/
def insertByDate (r : MLRec) : List MLRec → List MLRec
  | [] => [r]
  | x :: xs => if r.date ≤ x.date then r :: x :: xs else x :: insertByDate r xs

/-- Sort the records chronologically (df.sort_values('date')). -/
def sortByDate (l : List MLRec) : List MLRec := l.foldr insertByDate []

/-- Embedding of GradePredictionML._calculate_trend: the degree-1
np.polyfit slope, i.e. the ordinary-least-squares slope over
x = 0, 1, ..., n-1, written in closed form
(n*Sxy - Sx*Sy) / (n*Sxx - Sx^2); 0 when fewer than 2 points. -/
def _calculate_trend (ys : List ℚ) : ℚ :=
  if ys.length < 2 then 0
  else
    let m : ℚ := (ys.length : ℚ)
    let xs : List ℚ := (List.range ys.length).map (fun i => ((i : ℕ) : ℚ))
    let sx := xs.sum
    let sy := ys.sum
    let sxy := (List.zipWith (fun x y => x * y) xs ys).sum
    let sxx := (xs.map (fun x => x * x)).sum
    (m * sxy - sx * sy) / (m * sxx - sx * sx)

/-- Embedding of GradePredictionML._calculate_avg_interval: the mean of
consecutive date differences, 0 when fewer than 2 dates. -/
def _calculate_avg_interval (dates : List ℕ) : ℚ :=
  if dates.length < 2 then 0
  else meanQ (List.zipWith (fun a b => (b : ℚ) - (a : ℚ)) dates dates.tail)

/-- One feature row produced by GradePredictionML.prepare_features.
The std_grade and coefficient_variation features (sample standard
deviation, which is irrational) are omitted: no modelled claim depends
on feature values, only on the number of rows and the target. -/
structure FeatureRow where
  mean_grade : ℚ
  min_grade : ℚ
  max_grade : ℚ
  median_grade : ℚ
  recent_avg_3 : ℚ
  recent_avg_5 : ℚ
  trend_slope : ℚ
  num_tests : ℕ
  num_assignments : ℕ
  weighted_avg : ℚ
  days_since_first : ℚ
  avg_days_between : ℚ
  target : ℚ
deriving DecidableEq, Repr

/-- The feature dict computed for the row `cur` from the strictly
earlier rows `past` (prepare_features loop body). -/
def mkFeature (past : List MLRec) (cur : MLRec) : FeatureRow :=
  let grades := past.map (fun r => r.grade)
  { mean_grade := meanQ grades
    min_grade := listMinQ grades
    max_grade := listMaxQ grades
    median_grade := medianQ grades
    recent_avg_3 := if 3 ≤ past.length then meanQ (lastN 3 grades) else meanQ grades
    recent_avg_5 := if 5 ≤ past.length then meanQ (lastN 5 grades) else meanQ grades
    trend_slope := _calculate_trend grades
    num_tests := (past.filter (fun r => r.type = "テスト")).length
    num_assignments := (past.filter (fun r => r.type = "課題")).length
    weighted_avg :=
      if 0 < (past.map (fun r => r.weight)).sum then
        (past.map (fun r => r.grade * r.weight)).sum / (past.map (fun r => r.weight)).sum
      else meanQ grades
    days_since_first := (cur.date : ℚ) - (listMinNat (past.map (fun r => r.date)) : ℚ)
    avg_days_between := _calculate_avg_interval (past.map (fun r => r.date))
    target := cur.grade }

/-- The prepare_features loop: for each row of the sorted frame, indices
0 and 1 are skipped (`if i < 2: continue`) and every later row yields
one feature row computed from all strictly earlier rows. -/
def featureRowsLoop (past : List MLRec) : List MLRec → List FeatureRow
  | [] => []
  | cur :: rest =>
      (if 2 ≤ past.length then [mkFeature past cur] else [])
        ++ featureRowsLoop (past ++ [cur]) rest

/-- Embedding of GradePredictionML.prepare_features: None for fewer than
3 records, otherwise the feature rows of the date-sorted frame (one per
record index at least 2, hence length - 2 rows). -/
def prepare_features (g : List MLRec) : Option (List FeatureRow) :=
  if g.length < 3 then none
  else some (featureRowsLoop [] (sortByDate g))

/-- The part of GradePredictionML.train's result relevant here: the
success flag and the error message of the returned dict. -/
structure TrainResult where
  success : Bool
  error : Option String
deriving DecidableEq, Repr

/-- The insufficient-data error message of GradePredictionML.train. -/
def insufficientDataMsg : String := "データが不足しています（最低5件の成績データが必要）"

/-- The body of GradePredictionML.train inside its try block.  The
sklearn pipeline that runs after the data guard (train/test split,
scaling, model fitting, cross-validation, model saving) is abstracted
as a parameter that may itself raise. -/
def trainBody (pipeline : List FeatureRow → PyResult TrainResult)
    (g : List MLRec) : PyResult TrainResult :=
  match prepare_features g with
  | none => .ok { success := false, error := some insufficientDataMsg }
  | some df =>
      if df.length < 5 then .ok { success := false, error := some insufficientDataMsg }
      else pipeline df

/-- Embedding of GradePredictionML.train: the try body with its
catch-all except clause, which converts any raised exception e into the
dict with success False and error str(e). -/
def train (pipeline : List FeatureRow → PyResult TrainResult)
    (g : List MLRec) : TrainResult :=
  match trainBody pipeline g with
  | .ok r => r
  | .exn e => { success := false, error := some e }

/-- A pipeline that always succeeds, used to show that a data-guard
failure does not come from the sklearn stage. -/
def okPipeline : List FeatureRow → PyResult TrainResult :=
  fun _ => .ok { success := true, error := none }

/-- Five chronologically ordered records for one subject. -/
def fiveRecords : List MLRec :=
  [⟨0, "テスト", 60, 1⟩, ⟨7, "テスト", 65, 1⟩, ⟨14, "テスト", 70, 1⟩,
   ⟨21, "テスト", 75, 1⟩, ⟨28, "テスト", 80, 1⟩]

/-- Python round(x, 1): rounding to one decimal place, idealised as
round-half-up over the rationals. -/
def round1 (x : ℚ) : ℚ := ((⌊10 * x + 1 / 2⌋ : ℤ) : ℚ) / 10

/-- One entry of the list returned by predict_next_grade. -/
structure PredEntry where
  prediction_num : ℕ
  predicted_grade : ℚ
  conf_lower : ℚ
  conf_upper : ℚ
deriving DecidableEq, Repr

/-- Lower end of _calculate_confidence_interval (margin 1.96 * 5). -/
def confidenceLower (p : ℚ) : ℚ := max 0 (round1 (p - 49 / 5))

/-- Upper end of _calculate_confidence_interval (margin 1.96 * 5). -/
def confidenceUpper (p : ℚ) : ℚ := min 100 (round1 (p + 49 / 5))

/-- The maximum date of the frame (df['date'].max()). -/
def maxDate (l : List MLRec) : ℕ := listMaxNat (l.map (fun r => r.date))

/-- The prediction entry appended for step i once the raw regressor
output has been clamped to [0, 100]: the reported grade is the clamped
value rounded to one decimal, with its confidence interval. -/
def stepEntry (i : ℕ) (clamped : ℚ) : PredEntry :=
  { prediction_num := i
    predicted_grade := round1 clamped
    conf_lower := confidenceLower clamped
    conf_upper := confidenceUpper clamped }

/-- The synthetic future record appended to the frame after a
prediction: date advanced by int(average interval), type テスト, the
clamped predicted grade, and the mean weight. -/
def stepRec (df : List MLRec) (clamped : ℚ) : MLRec :=
  ⟨maxDate df + (⌊_calculate_avg_interval (df.map (fun r => r.date))⌋).toNat,
    "テスト", clamped, meanQ (df.map (fun r => r.weight))⟩

/-- The prediction loop of predict_next_grade.  The fitted regressor
(best model composed with the scaler, applied to the feature dict of
the current frame) is abstracted as a parameter f that may raise.  Each
step clamps the raw prediction via max(0, min(100, raw)), reports the
step entry, and appends the synthetic future record. -/
def predictLoop (f : List MLRec → PyResult ℚ) :
    ℕ → ℕ → List MLRec → PyResult (List PredEntry)
  | 0, _, _ => .ok []
  | k + 1, i, df =>
      match f df with
      | .exn e => .exn e
      | .ok raw =>
          match predictLoop f k (i + 1) (df ++ [stepRec df (max 0 (min 100 raw))]) with
          | .ok rest => .ok (stepEntry i (max 0 (min 100 raw)) :: rest)
          | .exn e => .exn e

/-- Embedding of GradePredictionML.predict_next_grade: None when no
model has been trained; an empty frame raises inside the try block
(missing 'date' column) and the catch-all returns None; any exception
from the loop likewise yields None; otherwise the prediction list. -/
def predict_next_grade (model : Option (List MLRec → PyResult ℚ))
    (g : List MLRec) (num : ℕ) : Option (List PredEntry) :=
  match model with
  | none => none
  | some f =>
      if g.isEmpty then none
      else
        match predictLoop f num 1 (sortByDate g) with
        | .ok preds => some preds
        | .exn _ => none

/-- Chronological ordering of a record list (dates non-decreasing). -/
def chronological : List MLRec → Bool
  | [] => true
  | [_] => true
  | a :: b :: rest => (a.date ≤ b.date) && chronological (b :: rest)

end MLPrediction

end SapiAI

namespace SapiAI.Data

/-- A normalized goal record (normalize_goals_data): a dict with subject,
goal_type, goal, deadline and status keys. -/
structure Goal where
  subject : String
  goal_type : String
  goal : String
  deadline : String
  status : String
deriving DecidableEq, Repr

/-- Python equality between a str and a dict: always False, whatever the
operands, so `subject in goals` is False on a list of goal dicts. -/
def pyStrEqGoal (_s : String) (_g : Goal) : Bool := false

/-- Membership test `key in d` on a Python dict, modelled as an
association list. -/
def dictMem {α : Type} (k : String) (d : List (String × α)) : Bool :=
  d.any (fun kv => kv.1 == k)

/-- Deletion `del d[key]` on a Python dict, modelled on the association
list (dict keys are unique, so removing every binding of k is the
same). -/
def dictDel {α : Type} (k : String) (d : List (String × α)) : List (String × α) :=
  d.filter (fun kv => kv.1 != k)

/-- The relevant session state for delete_subject: the subjects list,
the goals list (normalized list-of-records format), and the progress
and grades dicts keyed by subject (their values are opaque here). -/
structure SessionState (P G : Type) where
  subjects : List String
  goals : List Goal
  progress : List (String × P)
  grades : List (String × G)

/-- Embedding of delete_subject (data.py).  Removes the subject from
the subjects list (list.remove: first occurrence), then runs the three
`if subject in ...: del ...` blocks, in source order goals, progress,
grades.  On the goals LIST the membership test compares the string
against goal dicts; were it ever true, `del goals[subject]` would raise
TypeError (list indices must be integers), modelled as exn.  The
save_* calls only persist the new state and are not modelled. -/
def delete_subject {P G : Type} (subject : String) (st : SessionState P G) :
    PyResult (Bool × SessionState P G) :=
  if st.subjects.contains subject then
    let st1 : SessionState P G := { st with subjects := st.subjects.erase subject }
    if st1.goals.any (pyStrEqGoal subject) then .exn "TypeError"
    else
      let st2 : SessionState P G :=
        if dictMem subject st1.progress then
          { st1 with progress := dictDel subject st1.progress }
        else st1
      let st3 : SessionState P G :=
        if dictMem subject st2.grades then
          { st2 with grades := dictDel subject st2.grades }
        else st2
      .ok (true, st3)
  else .ok (false, st)

/-- A concrete session state with one goal attached to subject 数学. -/
def testState : SessionState ℕ ℕ :=
  { subjects := ["数学", "英語"]
    goals := [⟨"数学", "短期", "80点以上", "2026-01-01", "進行中"⟩]
    progress := [("数学", 1)]
    grades := [("数学", 2)] }

end SapiAI.Data

namespace SapiAI.Data

/- The JSON values handled by save_grades / load_grades (data.py),
which delegate to json.dump(..., ensure_ascii=False, indent=4) and
json.load.  Lists and objects are mutual inductives so that all
recursion below is structural.  Float literals are not modelled (their
round trip rests on Python's repr shortest-representation guarantee, a
floating-point property outside this embedding); the grades data is
strings, integers, booleans, nulls, arrays and string-keyed objects. -/
mutual
/-- A JSON value. -/
inductive Json where
  | null
  | bool (b : Bool)
  | int (n : ℤ)
  | str (s : String)
  | arr (elems : JsonList)
  | obj (members : JsonMembers)
deriving Repr

/-- A JSON array body. -/
inductive JsonList where
  | nil
  | cons (hd : Json) (tl : JsonList)
deriving Repr

/-- A JSON object body: key-value bindings in insertion order. -/
inductive JsonMembers where
  | nil
  | cons (key : String) (val : Json) (tl : JsonMembers)
deriving Repr
end

/-- Whether a members list binds the key (Python `key in dict`). -/
def hasKey : JsonMembers → String → Bool
  | .nil, _ => false
  | .cons k _ tl, key => k == key || hasKey tl key

/-- Python dict insertion `d[k] = v`: replace in place when the key is
bound, append otherwise. -/
def dictInsert : JsonMembers → String → Json → JsonMembers
  | .nil, k, v => .cons k v .nil
  | .cons k1 v1 tl, k, v =>
      if k1 == k then .cons k1 v tl else .cons k1 v1 (dictInsert tl k v)

/-- Concatenation of member lists. -/
def appendM : JsonMembers → JsonMembers → JsonMembers
  | .nil, ms => ms
  | .cons k v tl, ms => .cons k v (appendM tl ms)

/- Well-formedness of a value dumped from Python data: object keys are
distinct (a Python dict cannot bind a key twice).  Arrays and nested
values are checked recursively. -/
mutual
/-- Key distinctness, recursively (see the comment above). -/
def jsonWF : Json → Bool
  | .null => true
  | .bool _ => true
  | .int _ => true
  | .str _ => true
  | .arr es => listWF es
  | .obj ms => membersWF ms

/-- jsonWF on every element of an array body. -/
def listWF : JsonList → Bool
  | .nil => true
  | .cons v tl => jsonWF v && listWF tl

/-- Distinct keys and jsonWF values in an object body. -/
def membersWF : JsonMembers → Bool
  | .nil => true
  | .cons k v tl => !(hasKey tl k) && jsonWF v && membersWF tl
end

/-- The lowercase hex digit used in \u00xx escapes. -/
def hexDigitChar (n : ℕ) : Char :=
  if n < 10 then Char.ofNat (48 + n) else Char.ofNat (87 + n)

/-- How json.dump (ensure_ascii=False) writes one character of a string:
backslash escapes for quote, backslash and the named control characters,
\u00xx for the remaining control characters, the character itself
otherwise. -/
def escapeChar (c : Char) : List Char :=
  if c = '"' then ['\\', '"']
  else if c = '\\' then ['\\', '\\']
  else if c = '\n' then ['\\', 'n']
  else if c = '\r' then ['\\', 'r']
  else if c = '\t' then ['\\', 't']
  else if c.toNat = 8 then ['\\', 'b']
  else if c.toNat = 12 then ['\\', 'f']
  else if c.toNat < 32 then
    ['\\', 'u', '0', '0', hexDigitChar (c.toNat / 16), hexDigitChar (c.toNat % 16)]
  else [c]

/-- Escape every character of a string body. -/
def escapeList : List Char → List Char
  | [] => []
  | c :: cs => escapeChar c ++ escapeList cs

/-- A JSON string literal: quote, escaped body, quote. -/
def serStr (s : String) : List Char := '"' :: escapeList s.data ++ ['"']

/-- Decimal digits of a natural number. -/
def natToChars (n : ℕ) : List Char :=
  if h : n < 10 then [Char.ofNat (48 + n)]
  else natToChars (n / 10) ++ [Char.ofNat (48 + n % 10)]
termination_by n
decreasing_by exact Nat.div_lt_self (by omega) (by omega)

/-- Decimal representation of an integer, with a leading minus sign for
negative values. -/
def intToChars (n : ℤ) : List Char :=
  if n < 0 then '-' :: natToChars (-n).toNat else natToChars n.toNat

/-- The indentation written at nesting depth d by json.dump(indent=4). -/
def indent (d : ℕ) : List Char := List.replicate (4 * d) ' '

/- Serialization of json.dump(obj, ensure_ascii=False, indent=4): each
non-empty container opens with a newline, indents every element by four
spaces per depth, separates elements with ",\n" and keys from values
with ": ", and closes on a fresh line at the enclosing depth; empty
containers print without inner whitespace. -/
/-- The keyword written for a null value. -/
def nullChars : List Char := ['n', 'u', 'l', 'l']

/-- The keyword written for the boolean b. -/
def boolChars (b : Bool) : List Char :=
  if b then ['t', 'r', 'u', 'e'] else ['f', 'a', 'l', 's', 'e']

mutual
/-- One JSON value at depth d (see the comment above). -/
def serVal (d : ℕ) : Json → List Char
  | .null => nullChars
  | .bool b => boolChars b
  | .int n => intToChars n
  | .str s => serStr s
  | .arr .nil => ['[', ']']
  | .arr (.cons v tl) =>
      '[' :: '\n' :: indent (d + 1) ++ serItems (d + 1) (.cons v tl)
        ++ '\n' :: indent d ++ [']']
  | .obj .nil => ['{', '}']
  | .obj (.cons k v tl) =>
      '{' :: '\n' :: indent (d + 1) ++ serMembers (d + 1) (.cons k v tl)
        ++ '\n' :: indent d ++ ['}']

/-- Array elements at depth d, separated by ",\n" plus indentation. -/
def serItems (d : ℕ) : JsonList → List Char
  | .nil => []
  | .cons v tl =>
      serVal d v ++
      (match tl with
       | .nil => []
       | .cons _ _ => ',' :: '\n' :: indent d ++ serItems d tl)

/-- Object members at depth d: key, ": ", value, separated like array
elements. -/
def serMembers (d : ℕ) : JsonMembers → List Char
  | .nil => []
  | .cons k v tl =>
      serStr k ++ ':' :: ' ' :: serVal d v ++
      (match tl with
       | .nil => []
       | .cons _ _ _ => ',' :: '\n' :: indent d ++ serMembers d tl)
end

/-- JSON whitespace (the four characters json.load skips). -/
def isWsChar (c : Char) : Bool := c = ' ' || c = '\t' || c = '\n' || c = '\r'

/-- Drop leading JSON whitespace. -/
def skipWs : List Char → List Char
  | [] => []
  | c :: cs => if isWsChar c then skipWs cs else c :: cs

/-- Value of a hex digit character, if it is one. -/
def fromHexDigit (c : Char) : Option ℕ :=
  if 48 ≤ c.toNat ∧ c.toNat ≤ 57 then some (c.toNat - 48)
  else if 97 ≤ c.toNat ∧ c.toNat ≤ 102 then some (c.toNat - 87)
  else if 65 ≤ c.toNat ∧ c.toNat ≤ 70 then some (c.toNat - 55)
  else none

/-- Prepend a decoded character to a string-body parse result. -/
def mapCons (x : Char) : Option (List Char × List Char) → Option (List Char × List Char)
  | some (content, rest) => some (x :: content, rest)
  | none => none

/-- Parser for the body of a JSON string literal, after the opening
quote: returns the decoded characters and the input after the closing
quote.  Raw control characters are rejected (json.load strict mode);
escape sequences follow the JSON grammar.  Surrogate \u escapes are
rejected rather than paired (a lone or paired surrogate cannot occur in
the output of the serializer above, and Lean strings cannot hold lone
surrogates). -/
def parseStringBody : List Char → Option (List Char × List Char)
  | [] => none
  | c :: cs =>
    if c = '"' then some ([], cs)
    else if c = '\\' then
      match cs with
      | [] => none
      | e :: cs2 =>
        if e = '"' then mapCons '"' (parseStringBody cs2)
        else if e = '\\' then mapCons '\\' (parseStringBody cs2)
        else if e = '/' then mapCons '/' (parseStringBody cs2)
        else if e = 'b' then mapCons (Char.ofNat 8) (parseStringBody cs2)
        else if e = 'f' then mapCons (Char.ofNat 12) (parseStringBody cs2)
        else if e = 'n' then mapCons '\n' (parseStringBody cs2)
        else if e = 'r' then mapCons '\r' (parseStringBody cs2)
        else if e = 't' then mapCons '\t' (parseStringBody cs2)
        else if e = 'u' then
          match cs2 with
          | h1 :: h2 :: h3 :: h4 :: cs3 =>
            match fromHexDigit h1, fromHexDigit h2, fromHexDigit h3, fromHexDigit h4 with
            | some a, some b, some c3, some d4 =>
              let code := ((a * 16 + b) * 16 + c3) * 16 + d4
              if 55296 ≤ code ∧ code ≤ 57343 then none
              else mapCons (Char.ofNat code) (parseStringBody cs3)
            | _, _, _, _ => none
          | _ => none
        else none
    else if c.toNat < 32 then none
    else mapCons c (parseStringBody cs)

/-- Whether c is one of the decimal digit characters 0-9. -/
def isDigitChar (c : Char) : Bool := 48 ≤ c.toNat && c.toNat ≤ 57

/-- Accumulate a run of decimal digits. -/
def parseDigitsAcc (acc : ℕ) : List Char → ℕ × List Char
  | [] => (acc, [])
  | c :: cs =>
      if isDigitChar c then parseDigitsAcc (acc * 10 + (c.toNat - 48)) cs
      else (acc, c :: cs)

/-- Parse a JSON natural-number literal: a lone 0, or a nonzero digit
followed by any digits (the grammar forbids leading zeros). -/
def parseNat : List Char → Option (ℕ × List Char)
  | [] => none
  | c :: cs =>
    if c = '0' then some (0, cs)
    else if isDigitChar c then some (parseDigitsAcc (c.toNat - 48) cs)
    else none

/-- Whether the characters after an integer literal would extend it to a
float literal (fraction or exponent). -/
def floatFollows : List Char → Bool
  | [] => false
  | c :: _ => c = '.' || c = 'e' || c = 'E'

/-- Parse a JSON integer literal.  A fraction or exponent part would
make it a float literal, which this embedding does not model, so the
parser rejects it (json.load would build a float there). -/
def parseIntToken (cs : List Char) : Option (ℤ × List Char) :=
  if cs.head? = some '-' then
    match parseNat cs.tail with
    | some (n, rest) => if floatFollows rest then none else some (-(n : ℤ), rest)
    | none => none
  else
    match parseNat cs with
    | some (n, rest) => if floatFollows rest then none else some ((n : ℤ), rest)
    | none => none

/- Recursive-descent parser for a JSON value, modelling json.load.
Leading whitespace is skipped; the first character dispatches between
object, array, string, the three keywords, and number.  The fuel
argument only bounds recursion depth; jsonLoads passes more fuel than
any parse can consume. -/
mutual
/-- One JSON value (see the comment above). -/
def parseValue : ℕ → List Char → Option (Json × List Char)
  | 0, _ => none
  | fuel + 1, cs =>
    match skipWs cs with
    | [] => none
    | c :: cs1 =>
      if c = '{' then
        let cs2 := skipWs cs1
        if cs2.head? = some '}' then some (.obj .nil, cs2.tail)
        else parseMembers fuel .nil cs2
      else if c = '[' then
        let cs2 := skipWs cs1
        if cs2.head? = some ']' then some (.arr .nil, cs2.tail)
        else
          match parseItems fuel cs2 with
          | some (es, rest) => some (.arr es, rest)
          | none => none
      else if c = '"' then
        match parseStringBody cs1 with
        | some (content, rest) => some (.str (String.mk content), rest)
        | none => none
      else if c = 'n' then
        match cs1 with
        | 'u' :: 'l' :: 'l' :: rest => some (.null, rest)
        | _ => none
      else if c = 't' then
        match cs1 with
        | 'r' :: 'u' :: 'e' :: rest => some (.bool true, rest)
        | _ => none
      else if c = 'f' then
        match cs1 with
        | 'a' :: 'l' :: 's' :: 'e' :: rest => some (.bool false, rest)
        | _ => none
      else
        match parseIntToken (c :: cs1) with
        | some (n, rest) => some (.int n, rest)
        | none => none

/-- The comma-separated elements of a non-empty array, up to and
including the closing bracket. -/
def parseItems : ℕ → List Char → Option (JsonList × List Char)
  | 0, _ => none
  | fuel + 1, cs =>
    match parseValue fuel cs with
    | none => none
    | some (v, cs1) =>
      let cs2 := skipWs cs1
      if cs2.head? = some ',' then
        match parseItems fuel cs2.tail with
        | some (tl, rest) => some (.cons v tl, rest)
        | none => none
      else if cs2.head? = some ']' then some (.cons v .nil, cs2.tail)
      else none

/-- The comma-separated members of a non-empty object, up to and
including the closing brace, accumulating bindings by dict
insertion. -/
def parseMembers : ℕ → JsonMembers → List Char → Option (Json × List Char)
  | 0, _, _ => none
  | fuel + 1, acc, cs =>
    if cs.head? = some '"' then
      match parseStringBody cs.tail with
      | none => none
      | some (key, cs2) =>
        match skipWs cs2 with
        | ':' :: cs3 =>
          match parseValue fuel cs3 with
          | none => none
          | some (v, cs4) =>
            let acc2 := dictInsert acc (String.mk key) v
            let cs5 := skipWs cs4
            if cs5.head? = some ',' then parseMembers fuel acc2 (skipWs cs5.tail)
            else if cs5.head? = some '}' then some (.obj acc2, cs5.tail)
            else none
        | _ => none
    else none
end

/-- Embedding of json.dump(grades, f, ensure_ascii=False, indent=4):
the exact text written to grades.json. -/
def jsonDumps (v : Json) : String := String.mk (serVal 0 v)

/-- Embedding of json.load: parse one value, then require only trailing
whitespace (json.load raises Extra data otherwise). -/
def jsonLoads (s : String) : Option Json :=
  match parseValue (s.data.length + 1) s.data with
  | some (v, rest) => if skipWs rest = [] then some v else none
  | none => none

/-- Embedding of save_grades (data.py): the content written to
grades.json is the json.dump of the session grades. -/
def save_grades (grades : Json) : String := jsonDumps grades

/-- Embedding of load_grades (data.py): a missing grades.json yields the
empty dict; otherwise json.load parses the file content, raising
JSONDecodeError (uncaught in load_grades) on invalid input. -/
def load_grades (file : Option String) : PyResult Json :=
  match file with
  | none => .ok (.obj .nil)
  | some s =>
    match jsonLoads s with
    | some v => .ok v
    | none => .exn "JSONDecodeError"

/-- Whether the input starts with a decimal digit. -/
def digitStart : List Char → Bool
  | [] => false
  | c :: _ => isDigitChar c

/- Fuel sufficient to parse a serialized value: one unit per parseValue,
parseItems or parseMembers call. -/
mutual
/-- Fuel bound for parsing one value. -/
def jfuel : Json → ℕ
  | .null => 1
  | .bool _ => 1
  | .int _ => 1
  | .str _ => 1
  | .arr es => 1 + lfuel es
  | .obj ms => 1 + mfuel ms

/-- Fuel bound for parsing the elements of an array. -/
def lfuel : JsonList → ℕ
  | .nil => 0
  | .cons v tl => 1 + jfuel v + lfuel tl

/-- Fuel bound for parsing the members of an object. -/
def mfuel : JsonMembers → ℕ
  | .nil => 0
  | .cons _ v tl => 1 + jfuel v + mfuel tl
end

/-- Whether every key of ms is absent from acc. -/
def allFresh (acc : JsonMembers) : JsonMembers → Bool
  | .nil => true
  | .cons k _ tl => !(hasKey acc k) && allFresh acc tl

/-- A concrete grades mapping: two subjects, one with two grade records
carrying string, integer, float-free fields. -/
def exampleGrades : Json :=
  .obj (.cons "数学"
    (.arr (.cons (.obj (.cons "date" (.str "2026-01-01")
                  (.cons "grade" (.int 80)
                  (.cons "weight" (.int 1)
                  (.cons "comment" (.str "中間\nテスト") .nil)))))
          (.cons (.obj (.cons "date" (.str "2026-02-01")
                  (.cons "grade" (.int 90)
                  (.cons "weight" (.int 2) .nil))))
           .nil)))
    (.cons "英語" (.arr .nil) .nil))

end SapiAI.Data

namespace SapiAI.GradePrediction

/-- C1: for any grades list, target T, remaining count n >= 1 and nonzero
test weight w, calculate_required_score returns
x = (T*(W + n*w) - S) / (n*w) with S the weighted sum and W the weight
sum of the list; the goal-simulation display reports the goal as
impossible exactly when x > 100; and on the spec's example
(S = 260, W = 3, T = 90, n = 1, w = 1) the result is 100. -/
theorem calculate_required_score_closed_form (gs : List GradeRec) (target : ℚ)
    (n : ℤ) (w : ℚ) (hn : 1 ≤ n) (hw : w ≠ 0) :
    calculate_required_score gs target n w =
      .ok (some ((target * (totalWeight gs + n * w) - totalWeightedSum gs) / (n * w)))
    ∧ (∀ x : ℚ, calculate_required_score gs target n w = .ok (some x) →
        (goalSimMessage x = .impossible ↔ 100 < x))
    ∧ calculate_required_score sampleGrades 90 1 1 = .ok (some 100) := by
  have hn0 : ¬ (n ≤ 0) := by omega
  have hfw : (n : ℚ) * w ≠ 0 :=
    mul_ne_zero (Int.cast_ne_zero.mpr (by omega)) hw
  refine ⟨?_, ?_, ?_⟩
  · simp [calculate_required_score, hn0, hfw]
  · intro x _
    by_cases h1 : 100 < x
    · simp [goalSimMessage, h1]
    · by_cases h2 : x < 0 <;> simp [goalSimMessage, h1, h2]
  · norm_num [calculate_required_score, sampleGrades, totalWeightedSum,
      totalWeight, weightOf]

/-- Witness for C1 at the spec's concrete example. -/
theorem calculate_required_score_closed_form_witness :
    calculate_required_score sampleGrades 90 1 1 = .ok (some 100) :=
  (calculate_required_score_closed_form sampleGrades 90 1 1 (by norm_num)
    (by norm_num)).2.2

/-- C3 counterexample: with a single grade 80 (weight 1), target 70, one
remaining test of weight 1, the required score is 60, which is at most
the current weighted average 80, yet the display does not report
already-achieved (it shows a difficulty rating): the code tests x < 0,
not x <= current average. -/
theorem goal_achieved_claim_counterexample :
    calculate_required_score [⟨80, some 1⟩] 70 1 1 = .ok (some 60)
    ∧ (60 : ℚ) ≤ calculate_weighted_average [⟨80, some 1⟩]
    ∧ goalSimMessage 60 ≠ .achieved := by
  refine ⟨?_, ?_, ?_⟩
  · norm_num [calculate_required_score, totalWeightedSum, totalWeight, weightOf]
  · norm_num [calculate_weighted_average, totalWeightedSum, totalWeight, weightOf]
  · have h60 : goalSimMessage 60 = .difficulty 2 := by
      norm_num [goalSimMessage, difficultyStars]
    simp [h60]

/-- C3 (amended): once calculate_required_score has produced a value x,
the goal-simulation display reports already-achieved exactly when
x < 0. -/
theorem goal_achieved_iff_negative (gs : List GradeRec) (target : ℚ)
    (n : ℤ) (w : ℚ) (x : ℚ)
    (_h : calculate_required_score gs target n w = .ok (some x)) :
    goalSimMessage x = .achieved ↔ x < 0 := by
  by_cases h1 : 100 < x
  · have h2 : ¬ x < 0 := by linarith
    simp [goalSimMessage, h1, h2]
  · by_cases h2 : x < 0 <;> simp [goalSimMessage, h1, h2]

/-- Witness for the amended C3: grade 80, target 0 gives x = -80 and the
already-achieved message. -/
theorem goal_achieved_iff_negative_witness :
    goalSimMessage (-80) = .achieved ↔ (-80 : ℚ) < 0 :=
  goal_achieved_iff_negative [⟨80, some 1⟩] 0 1 1 (-80)
    (by norm_num [calculate_required_score, totalWeightedSum, totalWeight, weightOf])

/-- C6: calculate_weighted_average returns the weighted sum divided by
the weight sum (missing weights defaulting to 1) whenever the weight sum
is positive, and 0 when the list is empty or the weight sum is 0 (both
covered by the else branch below, since an empty list has weight sum 0);
on records (80, 1) and (90, 2) it returns 260/3. -/
theorem calculate_weighted_average_spec :
    (∀ gs : List GradeRec, calculate_weighted_average gs =
      if 0 < totalWeight gs then totalWeightedSum gs / totalWeight gs else 0)
    ∧ calculate_weighted_average sampleGrades = 260 / 3 := by
  have hmain : ∀ gs : List GradeRec, calculate_weighted_average gs =
      if 0 < totalWeight gs then totalWeightedSum gs / totalWeight gs else 0 := by
    intro gs
    rcases gs with _ | ⟨g, gs⟩
    · simp [calculate_weighted_average, totalWeight]
    · simp [calculate_weighted_average]
  refine ⟨hmain, ?_⟩
  rw [hmain sampleGrades]
  norm_num [sampleGrades, totalWeightedSum, totalWeight, weightOf]

/-- C9: the goal-simulation weight input accepts 0 (its min_value is
0.0), and calling calculate_required_score with test_weight 0 and at
least one remaining test divides by the zero future weight and raises
ZeroDivisionError instead of returning a value. -/
theorem required_score_zero_weight_raises (gs : List GradeRec) (target : ℚ)
    (n : ℤ) (hn : 1 ≤ n) :
    simulationWeightMin ≤ 0 ∧
    calculate_required_score gs target n 0 = .exn "ZeroDivisionError" := by
  have hn0 : ¬ (n ≤ 0) := by omega
  exact ⟨le_refl 0, by simp [calculate_required_score, hn0]⟩

/-- Witness for C9 with one remaining test on the sample grades. -/
theorem required_score_zero_weight_raises_witness :
    simulationWeightMin ≤ 0 ∧
    calculate_required_score sampleGrades 90 1 0 = .exn "ZeroDivisionError" :=
  required_score_zero_weight_raises sampleGrades 90 1 (by norm_num)

end SapiAI.GradePrediction

namespace SapiAI.MLPrediction

theorem sortByDate_length (l : List MLRec) : (sortByDate l).length = l.length := by
  have hins : ∀ (r : MLRec) (xs : List MLRec),
      (insertByDate r xs).length = xs.length + 1 := by
    intro r xs
    induction xs with
    | nil => rfl
    | cons x xs ih =>
      by_cases h : r.date ≤ x.date <;> simp [insertByDate, h, ih]
  induction l with
  | nil => rfl
  | cons x xs ih =>
    simp only [sortByDate] at ih ⊢
    simp [List.foldr_cons, hins, ih]

theorem featureRowsLoop_length (l : List MLRec) :
    ∀ past : List MLRec,
      (featureRowsLoop past l).length = l.length - (2 - past.length) := by
  induction l with
  | nil => intro past; simp [featureRowsLoop]
  | cons cur rest ih =>
    intro past
    by_cases h : 2 ≤ past.length <;>
      simp [featureRowsLoop, h, ih (past ++ [cur])] <;> omega

/-- C4: for any grades input with fewer than 5 records train returns the
structured insufficient-data failure (success False with the error
message) rather than raising; and whenever the try body raises any
exception e, the catch-all surfaces it as a success False result with
message str(e), so train never lets an exception propagate (its return
type is a plain result, not an exceptional one). -/
theorem train_insufficient_data_failure
    (pipeline : List FeatureRow → PyResult TrainResult) (g : List MLRec)
    (h : g.length < 5) :
    train pipeline g = { success := false, error := some insufficientDataMsg }
    ∧ ∀ (p2 : List FeatureRow → PyResult TrainResult) (g2 : List MLRec) (e : String),
        trainBody p2 g2 = .exn e →
        train p2 g2 = { success := false, error := some e } := by
  constructor
  · unfold train trainBody
    by_cases h3 : g.length < 3
    · simp [prepare_features, h3]
    · have hpf : prepare_features g = some (featureRowsLoop [] (sortByDate g)) := by
        simp [prepare_features, h3]
      have hlen : (featureRowsLoop [] (sortByDate g)).length = g.length - 2 := by
        rw [featureRowsLoop_length, sortByDate_length]; simp
      rw [hpf]
      simp only [hlen]
      rw [if_pos (by omega)]
  · intro p2 g2 e he
    unfold train
    rw [he]

/-- Witness for C4 at a concrete three-record input. -/
theorem train_insufficient_data_failure_witness :
    train okPipeline [⟨0, "テスト", 60, 1⟩, ⟨7, "テスト", 65, 1⟩, ⟨14, "テスト", 70, 1⟩] =
      { success := false, error := some insufficientDataMsg } :=
  (train_insufficient_data_failure okPipeline
    [⟨0, "テスト", 60, 1⟩, ⟨7, "テスト", 65, 1⟩, ⟨14, "テスト", 70, 1⟩] (by decide)).1

/-- C2 (refuted, code bug): a chronologically ordered list of exactly 5
grade records does NOT pass the minimum-data guard: train returns the
insufficient-data failure even with a pipeline that would succeed,
because the guard counts feature rows (records minus 2), while its own
error message claims 5 records suffice. -/
theorem train_five_records_insufficient :
    fiveRecords.length = 5
    ∧ chronological fiveRecords = true
    ∧ train okPipeline fiveRecords =
        { success := false, error := some insufficientDataMsg } :=
  ⟨rfl, by decide, by decide⟩

theorem zipWith_mul_replicate (xs : List ℚ) (m : ℕ) (c : ℚ) (h : xs.length = m) :
    List.zipWith (fun x y => x * y) xs (List.replicate m c) = xs.map (fun x => x * c) := by
  subst h
  induction xs with
  | nil => rfl
  | cons x xs ih => simp [List.replicate_succ, ih]

theorem sum_map_mul_right (l : List ℚ) (c : ℚ) :
    (l.map (fun x => x * c)).sum = l.sum * c := by
  induction l with
  | nil => simp
  | cons x xs ih => simp [ih]; ring

/-- C8: the OLS trend slope of _calculate_trend is positive (namely 5)
on the increasing sequence 60, 65, 70, 75, 80, and exactly 0 on every
constant sequence of length at least 2. -/
theorem trend_slope_spec (c : ℚ) (n : ℕ) (hn : 2 ≤ n) :
    (0 : ℚ) < _calculate_trend [60, 65, 70, 75, 80]
    ∧ _calculate_trend (List.replicate n c) = 0 := by
  constructor
  · have hr : List.range 5 = [0, 1, 2, 3, 4] := rfl
    have h5 : _calculate_trend [60, 65, 70, 75, 80] = 5 := by
      norm_num [_calculate_trend, hr]
    rw [h5]
    norm_num
  · have hlen : (List.replicate n c).length = n := List.length_replicate n c
    unfold _calculate_trend
    rw [if_neg (by rw [hlen]; omega)]
    simp only [hlen]
    rw [zipWith_mul_replicate _ n c (by rw [List.length_map, List.length_range]),
      sum_map_mul_right, List.sum_replicate, nsmul_eq_mul]
    apply div_eq_zero_iff.mpr
    left
    ring

/-- Witness for C8 with the constant sequence 70, 70. -/
theorem trend_slope_spec_witness :
    (0 : ℚ) < _calculate_trend [60, 65, 70, 75, 80]
    ∧ _calculate_trend (List.replicate 2 (70 : ℚ)) = 0 :=
  trend_slope_spec 70 2 (by norm_num)

theorem round1_bounds (x : ℚ) (h0 : 0 ≤ x) (h100 : x ≤ 100) :
    0 ≤ round1 x ∧ round1 x ≤ 100 := by
  unfold round1
  have hf0 : (0 : ℤ) ≤ ⌊10 * x + 1 / 2⌋ := Int.floor_nonneg.mpr (by linarith)
  have hf1 : ⌊10 * x + 1 / 2⌋ < 1001 := by
    rw [Int.floor_lt]
    push_cast
    linarith
  constructor
  · exact div_nonneg (by exact_mod_cast hf0) (by norm_num)
  · rw [div_le_iff₀ (by norm_num : (0 : ℚ) < 10)]
    have h1000 : (⌊10 * x + 1 / 2⌋ : ℤ) ≤ 1000 := by omega
    have : ((⌊10 * x + 1 / 2⌋ : ℤ) : ℚ) ≤ 1000 := by exact_mod_cast h1000
    linarith

theorem clamped_bounds (raw : ℚ) :
    0 ≤ max 0 (min 100 raw) ∧ max 0 (min 100 raw) ≤ 100 :=
  ⟨le_max_left 0 _, max_le (by norm_num) (min_le_left 100 raw)⟩

theorem predictLoop_range (f : List MLRec → PyResult ℚ) (k : ℕ) :
    ∀ (i : ℕ) (df : List MLRec) (preds : List PredEntry),
      predictLoop f k i df = .ok preds →
      ∀ p ∈ preds, 0 ≤ p.predicted_grade ∧ p.predicted_grade ≤ 100 := by
  induction k with
  | zero =>
    intro i df preds h p hp
    simp only [predictLoop] at h
    cases h
    simp at hp
  | succ k ih =>
    intro i df preds h p hp
    rw [predictLoop] at h
    cases hf : f df with
    | exn e => simp [hf] at h
    | ok raw =>
      simp only [hf] at h
      cases hrec : predictLoop f k (i + 1) (df ++ [stepRec df (max 0 (min 100 raw))]) with
      | exn e => simp [hrec] at h
      | ok rest =>
        simp only [hrec] at h
        have hpreds : stepEntry i (max 0 (min 100 raw)) :: rest = preds := by
          simpa using h
        subst hpreds
        rcases List.mem_cons.mp hp with hpe | hpr
        · subst hpe
          have hcl := clamped_bounds raw
          simpa [stepEntry] using round1_bounds _ hcl.1 hcl.2
        · exact ih (i + 1) _ rest hrec p hpr

/-- C5: every prediction returned by predict_next_grade has its
predicted_grade in [0, 100], for every trained model, grades input and
requested horizon, because each raw regressor output is clamped via
max(0, min(100, raw)) before being reported (and before being appended
as a synthetic future record). -/
theorem predict_next_grade_clamped (model : Option (List MLRec → PyResult ℚ))
    (g : List MLRec) (num : ℕ) (preds : List PredEntry)
    (h : predict_next_grade model g num = some preds) :
    ∀ p ∈ preds, 0 ≤ p.predicted_grade ∧ p.predicted_grade ≤ 100 := by
  cases model with
  | none => simp [predict_next_grade] at h
  | some f =>
    unfold predict_next_grade at h
    by_cases hg : g.isEmpty
    · simp [hg] at h
    · simp only [hg, Bool.false_eq_true, if_false] at h
      cases hl : predictLoop f num 1 (sortByDate g) with
      | exn e => simp [hl] at h
      | ok ps =>
        simp only [hl] at h
        have : ps = preds := by simpa using h
        subst this
        exact predictLoop_range f num 1 (sortByDate g) ps hl

theorem round1_100 : round1 100 = 100 := by
  rw [round1, show (10 : ℚ) * 100 + 1/2 = 2001/2 by norm_num,
    show (⌊(2001 : ℚ)/2⌋ : ℤ) = 1000 from by rw [Int.floor_eq_iff]; norm_num]
  norm_num

theorem round1_451_5 : round1 (451/5) = 451/5 := by
  rw [round1, show (10 : ℚ) * (451/5) + 1/2 = 1805/2 by norm_num,
    show (⌊(1805 : ℚ)/2⌋ : ℤ) = 902 from by rw [Int.floor_eq_iff]; norm_num]
  norm_num

theorem round1_549_5 : round1 (549/5) = 549/5 := by
  rw [round1, show (10 : ℚ) * (549/5) + 1/2 = 2197/2 by norm_num,
    show (⌊(2197 : ℚ)/2⌋ : ℤ) = 1098 from by rw [Int.floor_eq_iff]; norm_num]
  norm_num

/-- Witness for C5: a regressor that outputs 150 on a one-record input
yields the clamped prediction 100, which lies in [0, 100]. -/
theorem predict_next_grade_clamped_witness :
    0 ≤ (PredEntry.mk 1 100 (451/5) 100).predicted_grade
    ∧ (PredEntry.mk 1 100 (451/5) 100).predicted_grade ≤ 100 :=
  predict_next_grade_clamped (some (fun _ => PyResult.ok 150)) [⟨0, "テスト", 50, 1⟩] 1
    [⟨1, 100, 451/5, 100⟩]
    (by norm_num [predict_next_grade, predictLoop, sortByDate, insertByDate, stepEntry,
      confidenceLower, confidenceUpper, round1_100, round1_451_5, round1_549_5])
    ⟨1, 100, 451/5, 100⟩ (List.mem_singleton.mpr rfl)

end SapiAI.MLPrediction

namespace SapiAI.Data

theorem dictDel_of_not_mem {α : Type} (k : String) (d : List (String × α))
    (h : dictMem k d = false) : dictDel k d = d := by
  unfold dictMem at h
  unfold dictDel
  induction d with
  | nil => rfl
  | cons kv d ih =>
    rw [List.any_cons] at h
    rcases Bool.or_eq_false_iff.mp h with ⟨h1, h2⟩
    rw [List.filter_cons]
    have hbne : (kv.1 != k) = true := by rw [bne, h1]; rfl
    rw [hbne]
    simp [ih h2]

theorem dictMem_dictDel {α : Type} (k : String) (d : List (String × α)) :
    dictMem k (dictDel k d) = false := by
  unfold dictMem dictDel
  induction d with
  | nil => rfl
  | cons kv d ih =>
    rw [List.filter_cons]
    by_cases hk : (kv.1 == k) = true
    · have hb : (kv.1 != k) = false := by rw [bne, hk]; rfl
      rw [hb]
      simp only [Bool.false_eq_true, if_false]
      exact ih
    · have h1 : (kv.1 == k) = false := by revert hk; cases (kv.1 == k) <;> simp
      have hb : (kv.1 != k) = true := by rw [bne, h1]; rfl
      rw [hb]
      simp [List.any_cons, h1, ih]

/-- C10: when the goals collection is in the normalized list-of-records
format, delete_subject removes the subject from the subjects list and
deletes its progress and grades dict entries, but leaves the goals list
completely unchanged (goal records of the deleted subject survive),
because `subject in goals` compares the string against goal dicts and
is always False for a list of records. -/
theorem delete_subject_frame {P G : Type} (subject : String) (st : SessionState P G)
    (h : st.subjects.contains subject = true) :
    delete_subject subject st = .ok (true,
      { subjects := st.subjects.erase subject
        goals := st.goals
        progress := dictDel subject st.progress
        grades := dictDel subject st.grades })
    ∧ dictMem subject (dictDel subject st.progress) = false
    ∧ dictMem subject (dictDel subject st.grades) = false := by
  refine ⟨?_, dictMem_dictDel subject st.progress, dictMem_dictDel subject st.grades⟩
  unfold delete_subject
  rw [if_pos h]
  rw [if_neg (by simp [pyStrEqGoal])]
  by_cases hp : dictMem subject st.progress
  · by_cases hg : dictMem subject st.grades
    · simp [hp, hg]
    · simp [hp, hg, dictDel_of_not_mem subject st.grades (by simpa using hg)]
  · by_cases hg : dictMem subject st.grades
    · simp [hp, hg, dictDel_of_not_mem subject st.progress (by simpa using hp)]
    · simp [hp, hg, dictDel_of_not_mem subject st.progress (by simpa using hp),
        dictDel_of_not_mem subject st.grades (by simpa using hg)]

/-- Witness for C10 on a concrete two-subject state. -/
theorem delete_subject_frame_witness :
    delete_subject "数学" testState = .ok (true,
      { subjects := testState.subjects.erase "数学"
        goals := testState.goals
        progress := dictDel "数学" testState.progress
        grades := dictDel "数学" testState.grades })
    ∧ dictMem "数学" (dictDel "数学" testState.progress) = false
    ∧ dictMem "数学" (dictDel "数学" testState.grades) = false :=
  delete_subject_frame "数学" testState (by decide)

end SapiAI.Data

namespace SapiAI.Data

theorem skipWs_cons_not_ws (c : Char) (s : List Char) (h : isWsChar c = false) :
    skipWs (c :: s) = c :: s := by
  simp [skipWs, h]

theorem skipWs_append_ws (pre : List Char) (s : List Char)
    (h : ∀ c ∈ pre, isWsChar c = true) : skipWs (pre ++ s) = skipWs s := by
  induction pre with
  | nil => rfl
  | cons c cs ih =>
    have hc : isWsChar c = true := h c (by simp)
    simp only [List.cons_append, skipWs, hc, if_pos]
    exact ih (fun x hx => h x (by simp [hx]))

theorem skipWs_indent (d : ℕ) (s : List Char) : skipWs (indent d ++ s) = skipWs s := by
  apply skipWs_append_ws
  intro c hc
  rw [List.eq_of_mem_replicate hc]
  decide

theorem skipWs_nl_indent (d : ℕ) (s : List Char) :
    skipWs ('\n' :: (indent d ++ s)) = skipWs s := by
  have hn : isWsChar '\n' = true := by decide
  simp only [skipWs, hn, if_pos]
  exact skipWs_indent d s

theorem toNat_ofNat_small (n : ℕ) (h : n < 55296) : (Char.ofNat n).toNat = n := by
  rw [Char.ofNat, dif_pos (Or.inl h)]
  rfl

/-- A character outside the digit range cannot equal a digit. -/
theorem ne_of_digit (c : Char) (h : isDigitChar c = true) :
    ∀ x : Char, isDigitChar x = false → c ≠ x := by
  intro x hx heq
  rw [heq, hx] at h
  exact Bool.noConfusion h

/-- The head character of an integer literal (a minus sign or a digit)
is no JSON whitespace, no bracket, no brace, no quote and no keyword
head. -/
theorem digitOrMinus_facts (c : Char) (h : c = '-' ∨ isDigitChar c = true) :
    isWsChar c = false ∧ c ≠ '{' ∧ c ≠ '[' ∧ c ≠ '"' ∧ c ≠ 'n' ∧ c ≠ 't' ∧ c ≠ 'f'
    ∧ c ≠ ']' ∧ c ≠ '}' := by
  rcases h with rfl | h
  · exact ⟨by decide, by decide, by decide, by decide, by decide, by decide, by decide,
      by decide, by decide⟩
  · have hne := ne_of_digit c h
    refine ⟨?_, hne '{' (by decide), hne '[' (by decide), hne '"' (by decide),
      hne 'n' (by decide), hne 't' (by decide), hne 'f' (by decide),
      hne ']' (by decide), hne '}' (by decide)⟩
    simp [isWsChar, hne ' ' (by decide), hne '\t' (by decide),
      hne '\n' (by decide), hne '\r' (by decide)]

theorem parseDigitsAcc_append (ds : List Char) :
    ∀ (acc : ℕ) (rest : List Char), (∀ c ∈ ds, isDigitChar c = true) →
      digitStart rest = false →
      parseDigitsAcc acc (ds ++ rest) =
        (ds.foldl (fun a c => a * 10 + (c.toNat - 48)) acc, rest) := by
  induction ds with
  | nil =>
    intro acc rest _ hrest
    cases rest with
    | nil => rfl
    | cons c cs =>
      simp only [digitStart] at hrest
      simp [parseDigitsAcc, hrest]
  | cons c cs ih =>
    intro acc rest hds hrest
    have hc : isDigitChar c = true := hds c (by simp)
    simp only [List.cons_append, parseDigitsAcc, hc, if_pos, List.foldl_cons]
    exact ih _ rest (fun x hx => hds x (by simp [hx])) hrest

theorem natToChars_all_digits (n : ℕ) : ∀ c ∈ natToChars n, isDigitChar c = true := by
  induction n using Nat.strong_induction_on with
  | _ n ih =>
    rw [natToChars]
    by_cases h : n < 10
    · simp only [dif_pos h, List.mem_singleton]
      rintro c rfl
      have ht := toNat_ofNat_small (48 + n) (by omega)
      simp only [isDigitChar, ht, Bool.and_eq_true, decide_eq_true_eq]
      omega
    · simp only [dif_neg h, List.mem_append, List.mem_singleton]
      rintro c (hc | rfl)
      · exact ih (n / 10) (Nat.div_lt_self (by omega) (by omega)) c hc
      · have hm : n % 10 < 10 := Nat.mod_lt n (by omega)
        have ht := toNat_ofNat_small (48 + n % 10) (by omega)
        simp only [isDigitChar, ht, Bool.and_eq_true, decide_eq_true_eq]
        omega

theorem natToChars_foldl (n : ℕ) :
    ∀ acc : ℕ, (natToChars n).foldl (fun a c => a * 10 + (c.toNat - 48)) acc
      = acc * 10 ^ (natToChars n).length + n := by
  induction n using Nat.strong_induction_on with
  | _ n ih =>
    intro acc
    rw [natToChars]
    by_cases h : n < 10
    · have ht := toNat_ofNat_small (48 + n) (by omega)
      simp only [dif_pos h, List.foldl_cons, List.foldl_nil, List.length_cons,
        List.length_nil, ht, pow_one, Nat.zero_add]
      omega
    · have hdiv := Nat.div_lt_self (show 0 < n by omega) (show 1 < 10 by omega)
      have ht := toNat_ofNat_small (48 + n % 10) (by have := Nat.mod_lt n (show 0 < 10 by omega); omega)
      simp only [dif_neg h, List.foldl_append, List.foldl_cons, List.foldl_nil,
        List.length_append, List.length_singleton, ih (n / 10) hdiv acc, ht]
      have hmod : n % 10 + 48 - 48 = n % 10 := by omega
      rw [pow_succ]
      have := Nat.div_add_mod n 10
      ring_nf
      omega

theorem natToChars_ne_nil (n : ℕ) : natToChars n ≠ [] := by
  rw [natToChars]
  by_cases h : n < 10
  · simp [dif_pos h]
  · simp [dif_neg h]

theorem natToChars_pos_head (n : ℕ) (hn : 1 ≤ n) :
    ∃ c t, natToChars n = c :: t ∧ isDigitChar c = true ∧ c ≠ '0' := by
  induction n using Nat.strong_induction_on with
  | _ n ih =>
    rw [natToChars]
    by_cases h : n < 10
    · refine ⟨Char.ofNat (48 + n), [], by simp [dif_pos h], ?_, ?_⟩
      · have ht := toNat_ofNat_small (48 + n) (by omega)
        simp only [isDigitChar, ht, Bool.and_eq_true, decide_eq_true_eq]
        omega
      · intro heq
        have ht := toNat_ofNat_small (48 + n) (by omega)
        rw [heq] at ht
        have : ('0' : Char).toNat = 48 := by decide
        omega
    · have hdiv := Nat.div_lt_self (show 0 < n by omega) (show 1 < 10 by omega)
      have hd1 : 1 ≤ n / 10 := Nat.one_le_div_iff (by omega) |>.mpr (by omega)
      obtain ⟨c, t, hct, hdig, hne⟩ := ih (n / 10) hdiv hd1
      exact ⟨c, t ++ [Char.ofNat (48 + n % 10)], by simp [dif_neg h, hct], hdig, hne⟩

end SapiAI.Data

namespace SapiAI.Data

theorem parseNat_natToChars (n : ℕ) (rest : List Char) (hrest : digitStart rest = false) :
    parseNat (natToChars n ++ rest) = some (n, rest) := by
  by_cases h0 : n = 0
  · subst h0
    have : natToChars 0 = ['0'] := by rw [natToChars]; rfl
    rw [this]
    simp [parseNat]
  · obtain ⟨c, t, hct, hdig, hne0⟩ := natToChars_pos_head n (by omega)
    have hall := natToChars_all_digits n
    rw [hct] at hall ⊢
    simp only [List.cons_append, parseNat, hne0, if_neg, hdig, if_pos]
    rw [parseDigitsAcc_append t (c.toNat - 48) rest (fun x hx => hall x (by simp [hx])) hrest]
    have hfold : (c :: t).foldl (fun a x => a * 10 + (x.toNat - 48)) 0
        = t.foldl (fun a x => a * 10 + (x.toNat - 48)) (c.toNat - 48) := by
      simp [List.foldl_cons]
    have := natToChars_foldl n 0
    rw [hct] at this
    simp only [Nat.zero_mul, Nat.zero_add] at this
    rw [hfold] at this
    rw [this]
    simp

theorem parseIntToken_intToChars (n : ℤ) (rest : List Char)
    (hd : digitStart rest = false) (hf : floatFollows rest = false) :
    parseIntToken (intToChars n ++ rest) = some (n, rest) := by
  by_cases hneg : n < 0
  · have hp := parseNat_natToChars (-n).toNat rest hd
    simp only [intToChars, if_pos hneg, List.cons_append, parseIntToken,
      List.head?_cons, List.tail_cons]
    simp [hp, hf, Int.toNat_of_nonneg (show (0:ℤ) ≤ -n by omega)]
  · simp only [intToChars, if_neg hneg]
    obtain ⟨c, t, hct, hcd⟩ : ∃ c t, natToChars n.toNat = c :: t ∧ isDigitChar c = true := by
      by_cases h0 : n.toNat = 0
      · rw [h0]
        have : natToChars 0 = ['0'] := by rw [natToChars]; rfl
        exact ⟨'0', [], this, by decide⟩
      · obtain ⟨c, t, hct, hdig, _⟩ := natToChars_pos_head n.toNat (by omega)
        exact ⟨c, t, hct, hdig⟩
    have hcm : c ≠ '-' := ne_of_digit c hcd '-' (by decide)
    rw [hct]
    simp only [List.cons_append, parseIntToken, List.head?_cons]
    rw [if_neg (by simp [hcm])]
    rw [← List.cons_append, ← hct]
    have hp := parseNat_natToChars n.toNat rest hd
    simp [hp, hf, Int.toNat_of_nonneg (show (0:ℤ) ≤ n by omega)]

theorem intToChars_head (n : ℤ) :
    ∃ c t, intToChars n = c :: t ∧ (c = '-' ∨ isDigitChar c = true) := by
  by_cases hneg : n < 0
  · exact ⟨'-', natToChars (-n).toNat, by simp [intToChars, hneg], Or.inl rfl⟩
  · simp only [intToChars, if_neg hneg]
    by_cases h0 : n.toNat = 0
    · rw [h0]
      have : natToChars 0 = ['0'] := by rw [natToChars]; rfl
      exact ⟨'0', [], this, Or.inr (by decide)⟩
    · obtain ⟨c, t, hct, hdig, _⟩ := natToChars_pos_head n.toNat (by omega)
      exact ⟨c, t, hct, Or.inr hdig⟩

end SapiAI.Data

namespace SapiAI.Data

theorem fromHex_hexDigitChar (m : ℕ) (h : m < 16) :
    fromHexDigit (hexDigitChar m) = some m := by
  interval_cases m <;> decide

theorem parseStringBody_escapeList (cs : List Char) :
    ∀ rest : List Char, parseStringBody (escapeList cs ++ '"' :: rest) = some (cs, rest) := by
  induction cs with
  | nil =>
    intro rest
    show parseStringBody ([] ++ '"' :: rest) = some ([], rest)
    rw [List.nil_append, parseStringBody.eq_def]
    simp
  | cons c cs ih =>
    intro rest
    simp only [escapeList, List.append_assoc]
    by_cases h1 : c = '"'
    · subst h1
      simp only [escapeChar, if_pos rfl, List.cons_append, List.nil_append]
      rw [parseStringBody.eq_def]
      simp [mapCons, ih rest]
    · by_cases h2 : c = '\\'
      · subst h2
        simp only [escapeChar, List.cons_append, List.nil_append]
        rw [parseStringBody.eq_def]
        simp [mapCons, ih rest]
      · by_cases h3 : c = '\n'
        · subst h3
          simp only [escapeChar, List.cons_append, List.nil_append]
          rw [parseStringBody.eq_def]
          simp [mapCons, ih rest]
        · by_cases h4 : c = '\r'
          · subst h4
            simp only [escapeChar, List.cons_append, List.nil_append]
            rw [parseStringBody.eq_def]
            simp [mapCons, ih rest]
          · by_cases h5 : c = '\t'
            · subst h5
              simp only [escapeChar, List.cons_append, List.nil_append]
              rw [parseStringBody.eq_def]
              simp [mapCons, ih rest]
            · by_cases h6 : c.toNat = 8
              · have hc : c = Char.ofNat 8 := by rw [← h6, Char.ofNat_toNat]
                simp only [escapeChar, h1, h2, h3, h4, h5, h6, if_false,
                  List.cons_append, List.nil_append]
                rw [parseStringBody.eq_def]
                simp [mapCons, ih rest, hc]
              · by_cases h7 : c.toNat = 12
                · have hc : c = Char.ofNat 12 := by rw [← h7, Char.ofNat_toNat]
                  simp only [escapeChar, h1, h2, h3, h4, h5, h6, h7, if_false,
                    List.cons_append, List.nil_append]
                  rw [parseStringBody.eq_def]
                  simp [mapCons, ih rest, hc]
                · by_cases h8 : c.toNat < 32
                  · simp only [escapeChar, h1, h2, h3, h4, h5, h6, h7, h8, if_true,
                      if_false, List.cons_append, List.nil_append]
                    rw [parseStringBody.eq_def]
                    have hhi : c.toNat / 16 < 16 := by omega
                    have hlo : c.toNat % 16 < 16 := by omega
                    simp [mapCons, ih rest, fromHex_hexDigitChar _ hhi,
                      fromHex_hexDigitChar _ hlo,
                      show fromHexDigit '0' = some 0 from by decide]
                    constructor
                    · intro hge
                      omega
                    · have hco : c.toNat / 16 * 16 + c.toNat % 16 = c.toNat := by omega
                      rw [hco, Char.ofNat_toNat]
                  · simp only [escapeChar, h1, h2, h3, h4, h5, h6, h7, h8, if_false,
                      List.cons_append, List.nil_append, List.singleton_append]
                    rw [parseStringBody.eq_def]
                    simp [mapCons, ih rest, h1, h2, h8]

end SapiAI.Data

namespace SapiAI.Data

theorem serVal_cons (d : ℕ) (v : Json) :
    ∃ c t, serVal d v = c :: t ∧ isWsChar c = false ∧ c ≠ ']' ∧ c ≠ '}' := by
  cases v with
  | null =>
    exact ⟨'n', ['u', 'l', 'l'], by rw [serVal]; rw [nullChars], by decide, by decide,
      by decide⟩
  | bool b =>
    cases b with
    | true =>
      exact ⟨'t', ['r', 'u', 'e'], by rw [serVal]; rw [boolChars]; rfl, by decide,
        by decide, by decide⟩
    | false =>
      exact ⟨'f', ['a', 'l', 's', 'e'], by rw [serVal]; rw [boolChars]; rfl, by decide,
        by decide, by decide⟩
  | int n =>
    obtain ⟨c, t, hct, hc⟩ := intToChars_head n
    obtain ⟨hws, _, _, _, _, _, _, hrb, hcb⟩ := digitOrMinus_facts c hc
    exact ⟨c, t, by rw [serVal, hct], hws, hrb, hcb⟩
  | str s =>
    refine ⟨'"', escapeList s.data ++ ['"'], ?_, by decide, by decide, by decide⟩
    rw [serVal, serStr]
    simp
  | arr es =>
    cases es with
    | nil => exact ⟨'[', [']'], by rw [serVal], by decide, by decide, by decide⟩
    | cons v tl =>
      refine ⟨'[', '\n' :: (indent (d + 1) ++ (serItems (d + 1) (.cons v tl)
        ++ ('\n' :: (indent d ++ [']'])))), ?_, by decide, by decide, by decide⟩
      rw [serVal]
      simp
  | obj ms =>
    cases ms with
    | nil => exact ⟨'{', ['}'], by rw [serVal], by decide, by decide, by decide⟩
    | cons k v tl =>
      refine ⟨'{', '\n' :: (indent (d + 1) ++ (serMembers (d + 1) (.cons k v tl)
        ++ ('\n' :: (indent d ++ ['}'])))), ?_, by decide, by decide, by decide⟩
      rw [serVal]
      simp

theorem length_serStr (s : String) : (serStr s).length = (escapeList s.data).length + 2 := by
  simp [serStr]

mutual
theorem jfuel_le_ser (d : ℕ) (v : Json) : jfuel v ≤ (serVal d v).length := by
  cases v with
  | null => rw [jfuel, serVal]; rw [nullChars]; simp
  | bool b => cases b <;> (rw [jfuel, serVal]; rw [boolChars]; simp)
  | int n =>
    obtain ⟨c, t, hct, _⟩ := intToChars_head n
    rw [jfuel, serVal, hct]
    simp
  | str s => rw [jfuel, serVal, length_serStr]; omega
  | arr es =>
    cases es with
    | nil => rw [jfuel, serVal, lfuel]; simp
    | cons v tl =>
      have h := lfuel_le_ser (d + 1) (.cons v tl)
      rw [jfuel, serVal]
      simp only [List.length_cons, List.length_append, List.length_singleton]
      omega
  | obj ms =>
    cases ms with
    | nil => rw [jfuel, serVal, mfuel]; simp
    | cons k v tl =>
      have h := mfuel_le_ser (d + 1) (.cons k v tl)
      rw [jfuel, serVal]
      simp only [List.length_cons, List.length_append, List.length_singleton]
      omega

theorem lfuel_le_ser (d : ℕ) (es : JsonList) : lfuel es ≤ (serItems d es).length + 1 := by
  cases es with
  | nil => rw [lfuel]; omega
  | cons v tl =>
    have hv := jfuel_le_ser d v
    cases tl with
    | nil =>
      rw [lfuel, serItems, lfuel]
      simp only [List.append_nil]
      omega
    | cons v2 tl2 =>
      have ht := lfuel_le_ser d (.cons v2 tl2)
      rw [lfuel, serItems]
      simp only [List.length_append, List.length_cons, List.length_replicate, indent]
      omega

theorem mfuel_le_ser (d : ℕ) (ms : JsonMembers) : mfuel ms ≤ (serMembers d ms).length + 1 := by
  cases ms with
  | nil => rw [mfuel]; omega
  | cons k v tl =>
    have hv := jfuel_le_ser d v
    cases tl with
    | nil =>
      rw [mfuel, serMembers, mfuel]
      simp only [List.append_nil, List.length_append, length_serStr, List.length_cons]
      omega
    | cons k2 v2 tl2 =>
      have ht := mfuel_le_ser d (.cons k2 v2 tl2)
      rw [mfuel, serMembers]
      simp only [List.length_append, length_serStr, List.length_cons,
        List.length_replicate, indent]
      omega
end

theorem hasKey_appendM : ∀ (a b : JsonMembers) (k : String),
    hasKey (appendM a b) k = (hasKey a k || hasKey b k)
  | .nil, b, k => by rw [appendM, hasKey]; simp
  | .cons k1 v1 tl, b, k => by
      rw [appendM, hasKey, hasKey, hasKey_appendM tl b k]
      simp [Bool.or_assoc]

theorem dictInsert_fresh : ∀ (a : JsonMembers) (k : String) (v : Json),
    hasKey a k = false → dictInsert a k v = appendM a (.cons k v .nil)
  | .nil, k, v, _ => rfl
  | .cons k1 v1 tl, k, v, h => by
      rw [hasKey] at h
      rcases Bool.or_eq_false_iff.mp h with ⟨h1, h2⟩
      rw [dictInsert, if_neg (by simp_all), appendM, dictInsert_fresh tl k v h2]

theorem appendM_single (k : String) (v : Json) (tl : JsonMembers) :
    appendM (.cons k v .nil) tl = .cons k v tl := by
  rw [appendM, appendM]

theorem appendM_assoc : ∀ (a b c : JsonMembers),
    appendM (appendM a b) c = appendM a (appendM b c)
  | .nil, b, c => by rw [appendM, appendM]
  | .cons k v tl, b, c => by rw [appendM, appendM, appendM, appendM_assoc tl b c]

theorem allFresh_appendM (a b : JsonMembers) : ∀ tl : JsonMembers,
    allFresh (appendM a b) tl = (allFresh a tl && allFresh b tl)
  | .nil => by rw [allFresh, allFresh, allFresh]; rfl
  | .cons k v tl2 => by
      rw [allFresh, allFresh, allFresh, hasKey_appendM, allFresh_appendM a b tl2]
      cases hasKey a k <;> cases hasKey b k <;> cases allFresh a tl2 <;>
        cases allFresh b tl2 <;> rfl

theorem allFresh_single (k : String) (v : Json) : ∀ tl : JsonMembers,
    hasKey tl k = false → allFresh (.cons k v .nil) tl = true
  | .nil, _ => rfl
  | .cons k1 v1 tl2, h => by
      rw [hasKey] at h
      rcases Bool.or_eq_false_iff.mp h with ⟨h1, h2⟩
      rw [allFresh, hasKey, hasKey]
      have hne : (k == k1) = false := by
        simp only [beq_eq_false_iff_ne] at h1 ⊢
        exact fun heq => h1 heq.symm
      simp [hne, allFresh_single k v tl2 h2]

end SapiAI.Data

namespace SapiAI.Data

theorem string_mk_data (s : String) : String.mk s.data = s := by
  cases s
  rfl

theorem skipWs_idem (cs : List Char) : skipWs (skipWs cs) = skipWs cs := by
  induction cs with
  | nil => rfl
  | cons c cs ih =>
    by_cases h : isWsChar c
    · simp only [skipWs, h, if_pos]
      exact ih
    · simp [skipWs, h]

theorem parseValue_skipWs (fuel : ℕ) (cs : List Char) :
    parseValue fuel (skipWs cs) = parseValue fuel cs := by
  cases fuel with
  | zero => rfl
  | succ f => rw [parseValue, parseValue, skipWs_idem]

theorem parseItems_nl_indent (fuel d : ℕ) (cs : List Char) :
    parseItems fuel ('\n' :: (indent d ++ cs)) = parseItems fuel cs := by
  cases fuel with
  | zero => rfl
  | succ f =>
    rw [parseItems, parseItems]
    have h1 : parseValue f ('\n' :: (indent d ++ cs)) = parseValue f cs := by
      rw [← parseValue_skipWs f ('\n' :: (indent d ++ cs)), skipWs_nl_indent,
        parseValue_skipWs]
    rw [h1]

end SapiAI.Data

namespace SapiAI.Data

theorem boundary_nl (X : List Char) :
    digitStart ('\n' :: X) = false ∧ floatFollows ('\n' :: X) = false := by
  constructor
  · rw [digitStart]; decide
  · rw [floatFollows]; decide

theorem boundary_comma (X : List Char) :
    digitStart (',' :: X) = false ∧ floatFollows (',' :: X) = false := by
  constructor
  · rw [digitStart]; decide
  · rw [floatFollows]; decide

theorem parseValue_cons_ws (c : Char) (h : isWsChar c = true) (fuel : ℕ) (Z : List Char) :
    parseValue fuel (c :: Z) = parseValue fuel Z := by
  rw [← parseValue_skipWs fuel (c :: Z),
    show skipWs (c :: Z) = skipWs Z from by simp [skipWs, h], parseValue_skipWs]

theorem skipWs_serItems_cons (d : ℕ) (v : Json) (tl : JsonList) (X : List Char) :
    skipWs (serItems d (.cons v tl) ++ X) = serItems d (.cons v tl) ++ X
    ∧ (serItems d (.cons v tl)).head? ≠ some ']'
    ∧ (serItems d (.cons v tl)).head? ≠ some '}' := by
  obtain ⟨c0, t0, hct0, hws0, hrb0, hcb0⟩ := serVal_cons d v
  have hshape : ∃ u, serItems d (.cons v tl) = c0 :: u := by
    cases tl with
    | nil => exact ⟨t0, by rw [serItems.eq_def]; simp [hct0]⟩
    | cons v2 tl2 =>
      refine ⟨t0 ++ ((',' :: '\n' :: indent d) ++ serItems d (.cons v2 tl2)), ?_⟩
      conv_lhs => rw [serItems.eq_def]
      simp [hct0]
  obtain ⟨u, hu⟩ := hshape
  rw [hu, List.cons_append]
  exact ⟨skipWs_cons_not_ws _ _ hws0, by simp [hrb0], by simp [hcb0]⟩

theorem skipWs_serMembers_cons (d : ℕ) (k : String) (v : Json) (tl : JsonMembers)
    (X : List Char) :
    skipWs (serMembers d (.cons k v tl) ++ X) = serMembers d (.cons k v tl) ++ X
    ∧ (serMembers d (.cons k v tl)).head? = some '"' := by
  have hshape : ∃ u, serMembers d (.cons k v tl) = '"' :: u := by
    cases tl with
    | nil =>
      refine ⟨escapeList k.data ++ ['"'] ++ (':' :: ' ' :: serVal d v), ?_⟩
      conv_lhs => rw [serMembers.eq_def]
      simp [serStr]
    | cons k2 v2 tl2 =>
      refine ⟨escapeList k.data ++ ['"'] ++ (':' :: ' ' :: serVal d v
        ++ ((',' :: '\n' :: indent d) ++ serMembers d (.cons k2 v2 tl2))), ?_⟩
      conv_lhs => rw [serMembers.eq_def]
      simp [serStr]
  obtain ⟨u, hu⟩ := hshape
  rw [hu, List.cons_append]
  exact ⟨skipWs_cons_not_ws _ _ (by decide), by simp⟩

theorem allFresh_nil : ∀ ms : JsonMembers, allFresh .nil ms = true
  | .nil => rfl
  | .cons k v tl => by rw [allFresh, hasKey, allFresh_nil tl]; rfl

end SapiAI.Data

namespace SapiAI.Data

set_option maxHeartbeats 1000000

mutual
theorem parseValue_ser (v : Json) (d fuel : ℕ) (rest : List Char)
    (hfuel : jfuel v ≤ fuel) (hwf : jsonWF v = true)
    (hd : digitStart rest = false) (hf : floatFollows rest = false) :
    parseValue fuel (serVal d v ++ rest) = some (v, rest) := by
  cases v with
  | null =>
    rw [jfuel] at hfuel
    cases fuel with
    | zero => exact absurd hfuel (by omega)
    | succ f =>
      rw [show serVal d Json.null = ['n', 'u', 'l', 'l'] from by
        rw [serVal]; rw [nullChars]]
      rw [parseValue]
      simp [skipWs, isWsChar]
  | bool b =>
    rw [jfuel] at hfuel
    cases fuel with
    | zero => exact absurd hfuel (by omega)
    | succ f =>
      cases b with
      | true =>
        rw [show serVal d (Json.bool true) = ['t', 'r', 'u', 'e'] from by
          rw [serVal]; rw [boolChars]; rfl]
        rw [parseValue]
        simp [skipWs, isWsChar]
      | false =>
        rw [show serVal d (Json.bool false) = ['f', 'a', 'l', 's', 'e'] from by
          rw [serVal]; rw [boolChars]; rfl]
        rw [parseValue]
        simp [skipWs, isWsChar]
  | str s =>
    rw [jfuel] at hfuel
    cases fuel with
    | zero => exact absurd hfuel (by omega)
    | succ f =>
      rw [show serVal d (Json.str s) = '"' :: (escapeList s.data ++ ['"']) from by
        rw [serVal, serStr]; simp]
      rw [parseValue]
      simp only [List.cons_append, List.append_assoc, List.singleton_append]
      rw [skipWs_cons_not_ws _ _ (by decide)]
      simp [parseStringBody_escapeList s.data rest, string_mk_data]
  | int n =>
    rw [jfuel] at hfuel
    cases fuel with
    | zero => exact absurd hfuel (by omega)
    | succ f =>
      obtain ⟨c, t, hct, hc⟩ := intToChars_head n
      obtain ⟨hws, hbrace, hbr, hq, hkn, hkt, hkf, _, _⟩ := digitOrMinus_facts c hc
      rw [show serVal d (Json.int n) = intToChars n from by rw [serVal], hct,
        List.cons_append, parseValue, skipWs_cons_not_ws _ _ hws]
      have hback : c :: (t ++ rest) = intToChars n ++ rest := by rw [hct]; simp
      simp [hbrace, hbr, hq, hkn, hkt, hkf, hback,
        parseIntToken_intToChars n rest hd hf]
  | arr es =>
    cases es with
    | nil =>
      rw [jfuel, lfuel] at hfuel
      cases fuel with
      | zero => exact absurd hfuel (by omega)
      | succ f =>
        rw [show serVal d (Json.arr .nil) = ['[', ']'] from by rw [serVal], parseValue]
        simp [skipWs, isWsChar]
    | cons v tl =>
      rw [jfuel] at hfuel
      cases fuel with
      | zero => exact absurd hfuel (by omega)
      | succ f =>
        have hfl : lfuel (.cons v tl) ≤ f := by omega
        rw [jsonWF] at hwf
        rw [show serVal d (Json.arr (.cons v tl)) = '[' :: ('\n' :: (indent (d + 1)
          ++ (serItems (d + 1) (.cons v tl) ++ ('\n' :: (indent d ++ [']'])))))
          from by rw [serVal]; simp, parseValue]
        simp only [List.cons_append, List.append_assoc, List.singleton_append]
        rw [skipWs_cons_not_ws _ _ (by decide)]
        have hnl := skipWs_nl_indent (d + 1)
          (serItems (d + 1) (.cons v tl) ++ ('\n' :: (indent d ++ (']' :: rest))))
        obtain ⟨hskip, hrb, _⟩ := skipWs_serItems_cons (d + 1) v tl
          ('\n' :: (indent d ++ (']' :: rest)))
        have hitems := parseItems_ser (.cons v tl) (d + 1) d f rest hfl (by simp) hwf
        simp [hnl, hskip, hrb, hitems]
  | obj ms =>
    cases ms with
    | nil =>
      rw [jfuel, mfuel] at hfuel
      cases fuel with
      | zero => exact absurd hfuel (by omega)
      | succ f =>
        rw [show serVal d (Json.obj .nil) = ['{', '}'] from by rw [serVal], parseValue]
        simp [skipWs, isWsChar]
    | cons k v tl =>
      rw [jfuel] at hfuel
      cases fuel with
      | zero => exact absurd hfuel (by omega)
      | succ f =>
        have hfm : mfuel (.cons k v tl) ≤ f := by omega
        rw [jsonWF] at hwf
        rw [show serVal d (Json.obj (.cons k v tl)) = '{' :: ('\n' :: (indent (d + 1)
          ++ (serMembers (d + 1) (.cons k v tl) ++ ('\n' :: (indent d ++ ['}'])))))
          from by rw [serVal]; simp, parseValue]
        simp only [List.cons_append, List.append_assoc, List.singleton_append]
        rw [skipWs_cons_not_ws _ _ (by decide)]
        have hnl := skipWs_nl_indent (d + 1)
          (serMembers (d + 1) (.cons k v tl) ++ ('\n' :: (indent d ++ ('}' :: rest))))
        obtain ⟨hskip, hq⟩ := skipWs_serMembers_cons (d + 1) k v tl
          ('\n' :: (indent d ++ ('}' :: rest)))
        have hmem := parseMembers_ser (.cons k v tl) (d + 1) d f .nil rest hfm
          (by simp) hwf (allFresh_nil _)
        rw [appendM] at hmem
        have hqb : (serMembers (d + 1) (.cons k v tl)).head? ≠ some '}' := by
          rw [hq]
          simp
        simp [hnl, hskip, hq, hqb, hmem]

theorem parseItems_ser (es : JsonList) (d dc fuel : ℕ) (rest : List Char)
    (hfuel : lfuel es ≤ fuel) (hne : es ≠ .nil) (hwf : listWF es = true) :
    parseItems fuel (serItems d es ++ ('\n' :: (indent dc ++ (']' :: rest))))
      = some (es, rest) := by
  cases es with
  | nil => exact absurd rfl hne
  | cons v tl =>
    rw [lfuel] at hfuel
    cases fuel with
    | zero => exact absurd hfuel (by omega)
    | succ f =>
      rw [listWF] at hwf
      rw [Bool.and_eq_true] at hwf
      obtain ⟨hwfv, hwftl⟩ := hwf
      cases tl with
      | nil =>
        rw [show serItems d (.cons v .nil) = serVal d v from by
          rw [serItems.eq_def]; simp]
        rw [parseItems]
        have hv := parseValue_ser v d f ('\n' :: (indent dc ++ (']' :: rest)))
          (by omega) hwfv
          (boundary_nl _).1 (boundary_nl _).2
        have hsk : skipWs ('\n' :: (indent dc ++ (']' :: rest))) = ']' :: rest := by
          rw [skipWs_nl_indent]
          exact skipWs_cons_not_ws _ _ (by decide)
        simp [hv, hsk]
      | cons v2 tl2 =>
        rw [show serItems d (.cons v (.cons v2 tl2))
            ++ ('\n' :: (indent dc ++ (']' :: rest)))
            = serVal d v ++ (',' :: ('\n' :: (indent d ++ (serItems d (.cons v2 tl2)
              ++ ('\n' :: (indent dc ++ (']' :: rest))))))) from by
          conv_lhs => rw [serItems.eq_def]
          simp]
        rw [parseItems]
        have hv := parseValue_ser v d f
          (',' :: ('\n' :: (indent d ++ (serItems d (.cons v2 tl2)
            ++ ('\n' :: (indent dc ++ (']' :: rest)))))))
          (by omega) hwfv
          (boundary_comma _).1 (boundary_comma _).2
        have hrec := parseItems_ser (.cons v2 tl2) d dc f rest
          (by omega) (by simp) hwftl
        have hnl := parseItems_nl_indent f d
          (serItems d (.cons v2 tl2) ++ ('\n' :: (indent dc ++ (']' :: rest))))
        have hsk : skipWs (',' :: ('\n' :: (indent d ++ (serItems d (.cons v2 tl2)
            ++ ('\n' :: (indent dc ++ (']' :: rest)))))))
            = ',' :: ('\n' :: (indent d ++ (serItems d (.cons v2 tl2)
              ++ ('\n' :: (indent dc ++ (']' :: rest)))))) :=
          skipWs_cons_not_ws _ _ (by decide)
        simp [hv, hsk, hnl, hrec]

theorem parseMembers_ser (ms : JsonMembers) (d dc fuel : ℕ) (acc : JsonMembers)
    (rest : List Char) (hfuel : mfuel ms ≤ fuel) (hne : ms ≠ .nil)
    (hwf : membersWF ms = true) (hfresh : allFresh acc ms = true) :
    parseMembers fuel acc (serMembers d ms ++ ('\n' :: (indent dc ++ ('}' :: rest))))
      = some (.obj (appendM acc ms), rest) := by
  cases ms with
  | nil => exact absurd rfl hne
  | cons k v tl =>
    rw [mfuel] at hfuel
    cases fuel with
    | zero => exact absurd hfuel (by omega)
    | succ f =>
      rw [membersWF] at hwf
      simp only [Bool.and_eq_true, Bool.not_eq_true'] at hwf
      obtain ⟨⟨hkey, hwfv⟩, hwftl⟩ := hwf
      rw [allFresh] at hfresh
      simp only [Bool.and_eq_true, Bool.not_eq_true'] at hfresh
      obtain ⟨hacck, hftl⟩ := hfresh
      cases tl with
      | nil =>
        rw [show serMembers d (.cons k v .nil) ++ ('\n' :: (indent dc ++ ('}' :: rest)))
            = '"' :: (escapeList k.data ++ ('"' :: (':' :: (' ' :: (serVal d v
              ++ ('\n' :: (indent dc ++ ('}' :: rest)))))))) from by
          conv_lhs => rw [serMembers.eq_def]
          simp [serStr]]
        rw [parseMembers]
        have hstr := parseStringBody_escapeList k.data
          (':' :: (' ' :: (serVal d v ++ ('\n' :: (indent dc ++ ('}' :: rest))))))
        have hv : parseValue f (' ' :: (serVal d v ++ ('\n' :: (indent dc ++ ('}' :: rest)))))
            = some (v, '\n' :: (indent dc ++ ('}' :: rest))) := by
          rw [parseValue_cons_ws ' ' (by decide)]
          exact parseValue_ser v d f _ (by omega) hwfv (boundary_nl _).1 (boundary_nl _).2
        have hsk : skipWs ('\n' :: (indent dc ++ ('}' :: rest))) = '}' :: rest := by
          rw [skipWs_nl_indent]
          exact skipWs_cons_not_ws _ _ (by decide)
        have hins : dictInsert acc (String.mk k.data) v = appendM acc (.cons k v .nil) := by
          rw [string_mk_data, dictInsert_fresh acc k v hacck]
        have hsk0 : skipWs (':' :: (' ' :: (serVal d v
            ++ ('\n' :: (indent dc ++ ('}' :: rest))))))
            = ':' :: (' ' :: (serVal d v ++ ('\n' :: (indent dc ++ ('}' :: rest))))) :=
          skipWs_cons_not_ws _ _ (by decide)
        simp [hstr, hsk0, hv, hsk, hins]
      | cons k2 v2 tl2 =>
        rw [show serMembers d (.cons k v (.cons k2 v2 tl2))
            ++ ('\n' :: (indent dc ++ ('}' :: rest)))
            = '"' :: (escapeList k.data ++ ('"' :: (':' :: (' ' :: (serVal d v
              ++ (',' :: ('\n' :: (indent d ++ (serMembers d (.cons k2 v2 tl2)
                ++ ('\n' :: (indent dc ++ ('}' :: rest)))))))))))) from by
          conv_lhs => rw [serMembers.eq_def]
          simp [serStr]]
        rw [parseMembers]
        have hstr := parseStringBody_escapeList k.data
          (':' :: (' ' :: (serVal d v ++ (',' :: ('\n' :: (indent d
            ++ (serMembers d (.cons k2 v2 tl2) ++ ('\n' :: (indent dc ++ ('}' :: rest))))))))))
        have hv : parseValue f (' ' :: (serVal d v ++ (',' :: ('\n' :: (indent d
            ++ (serMembers d (.cons k2 v2 tl2) ++ ('\n' :: (indent dc ++ ('}' :: rest)))))))))
            = some (v, ',' :: ('\n' :: (indent d ++ (serMembers d (.cons k2 v2 tl2)
              ++ ('\n' :: (indent dc ++ ('}' :: rest))))))) := by
          rw [parseValue_cons_ws ' ' (by decide)]
          exact parseValue_ser v d f _ (by omega) hwfv
            (boundary_comma _).1 (boundary_comma _).2
        have hins : dictInsert acc (String.mk k.data) v = appendM acc (.cons k v .nil) := by
          rw [string_mk_data, dictInsert_fresh acc k v hacck]
        obtain ⟨hskm, _⟩ := skipWs_serMembers_cons d k2 v2 tl2
          ('\n' :: (indent dc ++ ('}' :: rest)))
        have hsk2 : skipWs ('\n' :: (indent d ++ (serMembers d (.cons k2 v2 tl2)
            ++ ('\n' :: (indent dc ++ ('}' :: rest))))))
            = serMembers d (.cons k2 v2 tl2) ++ ('\n' :: (indent dc ++ ('}' :: rest))) := by
          rw [skipWs_nl_indent]
          exact hskm
        have hfresh2 : allFresh (appendM acc (.cons k v .nil)) (.cons k2 v2 tl2) = true := by
          rw [allFresh_appendM, Bool.and_eq_true]
          exact ⟨hftl, allFresh_single k v _ hkey⟩
        have hrec := parseMembers_ser (.cons k2 v2 tl2) d dc f
          (appendM acc (.cons k v .nil)) rest (by omega) (by simp) hwftl hfresh2
        have happ : appendM (appendM acc (.cons k v .nil)) (.cons k2 v2 tl2)
            = appendM acc (.cons k v (.cons k2 v2 tl2)) := by
          rw [appendM_assoc, appendM_single]
        rw [happ] at hrec
        have hsk1 : skipWs (',' :: ('\n' :: (indent d ++ (serMembers d (.cons k2 v2 tl2)
            ++ ('\n' :: (indent dc ++ ('}' :: rest)))))))
            = ',' :: ('\n' :: (indent d ++ (serMembers d (.cons k2 v2 tl2)
              ++ ('\n' :: (indent dc ++ ('}' :: rest)))))) :=
          skipWs_cons_not_ws _ _ (by decide)
        have hsk0 : skipWs (':' :: (' ' :: (serVal d v ++ (',' :: ('\n' :: (indent d
            ++ (serMembers d (.cons k2 v2 tl2)
              ++ ('\n' :: (indent dc ++ ('}' :: rest))))))))))
            = ':' :: (' ' :: (serVal d v ++ (',' :: ('\n' :: (indent d
              ++ (serMembers d (.cons k2 v2 tl2)
                ++ ('\n' :: (indent dc ++ ('}' :: rest))))))))) :=
          skipWs_cons_not_ws _ _ (by decide)
        simp [hstr, hsk0, hv, hins, hsk1, hsk2, hrec]
end

end SapiAI.Data

namespace SapiAI.Data

theorem jsonLoads_jsonDumps (v : Json) (h : jsonWF v = true) :
    jsonLoads (jsonDumps v) = some v := by
  unfold jsonLoads jsonDumps
  have hdata : (String.mk (serVal 0 v)).data = serVal 0 v := rfl
  rw [hdata]
  have hfuel : jfuel v ≤ (serVal 0 v).length + 1 :=
    le_trans (jfuel_le_ser 0 v) (by omega)
  have hp := parseValue_ser v 0 ((serVal 0 v).length + 1) [] hfuel h rfl rfl
  rw [List.append_nil] at hp
  rw [hp]
  simp [skipWs]

/-- C7: for every well-formed grades value (a Python dict has distinct
keys), re-loading the saved grades.json recovers exactly the same value
record for record, and saving again without modification therefore
writes the identical content: load after save is the identity on the
grades state, making save-load-save idempotent. -/
theorem save_load_save_roundtrip (grades : Json) (h : jsonWF grades = true) :
    load_grades (some (save_grades grades)) = .ok grades
    ∧ ∀ g2 : Json, load_grades (some (save_grades grades)) = .ok g2 →
        save_grades g2 = save_grades grades := by
  have hll : jsonLoads (jsonDumps grades) = some grades := jsonLoads_jsonDumps grades h
  constructor
  · unfold load_grades save_grades
    simp [hll]
  · intro g2 hg2
    unfold load_grades save_grades at hg2
    simp [hll] at hg2
    rw [hg2]

/-- Witness for C7 on the concrete two-subject grades mapping. -/
theorem save_load_save_roundtrip_witness :
    load_grades (some (save_grades exampleGrades)) = .ok exampleGrades :=
  (save_load_save_roundtrip exampleGrades (by decide)).1

end SapiAI.Data
